import Mathlib

/-!
Verification of the site-tree exporter (the `EXPORT FULL HTML SITE TREE`
script): a shallow embedding of its title extractor, sitemap classifier,
recursive tree builder and serializer, together with theorems settling the
specification claims about them.

The JavaScript source under scrutiny is:

  function extractTitle(html) -- regex match of the first title pair
  function checkSitemapMeta(html) -- two meta-directive regex tests
  function buildTree(currentPath, relativePath) -- recursive walker
  the main execution block -- buildTree at the root, then writeFileSync

Filesystem directories are modelled as an inductive tree of named entries;
page text is a Lean `String`.  The regex matchers are embedded as
character-list scanners reproducing the JavaScript regex semantics
(leftmost match, non-greedy capture, `.` not crossing line terminators,
case-insensitive literals, greedy whitespace runs).
-/

/-- Characters the JavaScript regex class `\s` (and `String.prototype.trim`)
treats as whitespace. -/
def isJsWs (c : Char) : Bool :=
  c = ' ' || c = '\t' || c = '\n' || c = '\r' ||
  c = Char.ofNat 0x0B || c = Char.ofNat 0x0C || c = Char.ofNat 0xA0 ||
  c = Char.ofNat 0x1680 ||
  (0x2000 ≤ c.toNat && c.toNat ≤ 0x200A) ||
  c = Char.ofNat 0x2028 || c = Char.ofNat 0x2029 || c = Char.ofNat 0x202F ||
  c = Char.ofNat 0x205F || c = Char.ofNat 0x3000 || c = Char.ofNat 0xFEFF

/-- Characters the JavaScript regex engine counts as line terminators,
which the dot `.` (without the `s` flag) refuses to match. -/
def isLineTerm (c : Char) : Bool :=
  c = '\n' || c = '\r' || c = Char.ofNat 0x2028 || c = Char.ofNat 0x2029

/-- The single-quote character, written via its code point. -/
def squo : Char := Char.ofNat 39

/-- Case-insensitive literal matching: consume the pattern `pat` from the
front of `cs` (comparing lower-cased characters, as the `i` regex flag
does on the ASCII literals that occur in the script) and return the
remainder, or `none` when the literal does not match. -/
def ciChop : List Char → List Char → Option (List Char)
  | [], cs => some cs
  | _ :: _, [] => none
  | p :: ps, c :: cs => if p.toLower = c.toLower then ciChop ps cs else none

/-- Whether the case-insensitive literal `pat` matches at the front of `cs`. -/
def ciLookingAt (pat cs : List Char) : Bool := (ciChop pat cs).isSome

/-- JavaScript `String.prototype.trim`: drop leading and trailing
whitespace characters. -/
def trimChars (cs : List Char) : List Char :=
  ((cs.dropWhile isJsWs).reverse.dropWhile isJsWs).reverse

/-- The global regex replacement `.replace(/\\/g, '/')` that the walker
applies to every path it records: each backslash becomes a forward slash. -/
def fixSlashes (s : String) : String :=
  String.mk (s.data.map (fun c => if c = '\\' then '/' else c))

/-- The test `entry.name.endsWith('.html')` selecting page files. -/
def isHtmlName (n : String) : Bool := ".html".data.isSuffixOf n.data

/-- Node's `path.join` on the two-segment calls the script makes, for
plain segment names: an empty accumulated path contributes nothing,
otherwise the segments are joined with a slash. -/
def pjoin (a b : String) : String := if a = "" then b else a ++ "/" ++ b

/-- The JavaScript expression `title || entry.name`: a `null` title or an
empty-string title falls back to the file name. -/
def jsOr (t : Option String) (fallback : String) : String :=
  match t with
  | some s => if s = "" then fallback else s
  | none => fallback

/-! ## Title extractor

`extractTitle` runs `html.match(/<title>(.*?)<\/title>/i)` and trims the
first capture group.  The embedding scans for the leftmost position where
the literal `<title>` matches case-insensitively and a closing
`</title>` can be reached through non-line-terminator characters; the
capture is the shortest such run (non-greedy `.*?`). -/

/-- The opening title delimiter literal. -/
def openTitleLit : List Char := "<title>".data

/-- The closing title delimiter literal. -/
def closeTitleLit : List Char := "</title>".data

/-- Attempt of the regex tail `(.*?)<\/title>` at a fixed position: walk
forward through characters the dot may match (anything but a line
terminator), stopping at the first point where the closing literal
matches; return the shortest capture, or `none` when a line terminator or
the end of input intervenes. -/
def scanContent : List Char → Option (List Char)
  | [] => if ciLookingAt closeTitleLit [] then some [] else none
  | c :: rest =>
    if ciLookingAt closeTitleLit (c :: rest) then some []
    else if isLineTerm c then none
    else (scanContent rest).map (fun cs => c :: cs)

/-- Leftmost-match search of `/<title>(.*?)<\/title>/i`: try the pattern
at each start position in turn and return the first capture group of the
first position where the whole pattern matches. -/
def findTitle : List Char → Option (List Char)
  | [] => none
  | c :: rest =>
    match ciChop openTitleLit (c :: rest) with
    | some after =>
      match scanContent after with
      | some content => some content
      | none => findTitle rest
    | none => findTitle rest

/-- `extractTitle(html)`: the trimmed first capture of the title regex, or
`null` when the regex does not match. -/
def extractTitle (html : String) : Option String :=
  (findTitle html.data).map (fun cs => String.mk (trimChars cs))

/-! ## Sitemap classifier

`checkSitemapMeta` runs the two regex tests

  /<meta\s+name=["']sitemap["']\s+content=["']include["']\s*\/?>/i
  /<meta\s+name=["']sitemap["']\s+content=["']exclude["']\s*\/?>/i

against the page text.  Each is embedded as a scanner for the fixed
attribute sequence: the literal `<meta`, mandatory whitespace, `name=`,
a quote, `sitemap`, a quote, mandatory whitespace, `content=`, a quote,
the directive value, a quote, optional whitespace, an optional slash and
the closing angle bracket. -/

/-- The regex class `["']`: either quote character, consumed. -/
def quoteAt : List Char → Option (List Char)
  | [] => none
  | c :: cs => if c = '"' || c = squo then some cs else none

/-- Greedy `\s*`: drop the maximal run of whitespace characters. -/
def wsMany : List Char → List Char
  | [] => []
  | c :: cs => if isJsWs c then wsMany cs else c :: cs

/-- Greedy `\s+`: at least one whitespace character, then the maximal
run; the regex continues with a non-whitespace literal, so maximal munch
is the unique viable parse. -/
def wsSome : List Char → Option (List Char)
  | [] => none
  | c :: cs => if isJsWs c then some (wsMany cs) else none

/-- The regex tail `\/?>`: an optional slash followed by the closing
angle bracket. -/
def slashGt : List Char → Bool
  | '/' :: '>' :: _ => true
  | '>' :: _ => true
  | _ => false

/-- Whether the whole meta-directive pattern with directive value `value`
matches at the front of `cs`. -/
def metaAt (value : List Char) (cs : List Char) : Bool :=
  match (((((((((ciChop "<meta".data cs).bind wsSome).bind
      (ciChop "name=".data)).bind quoteAt).bind
      (ciChop "sitemap".data)).bind quoteAt).bind wsSome).bind
      (ciChop "content=".data)).bind quoteAt).bind
      (ciChop value) |>.bind quoteAt with
  | none => false
  | some rest => slashGt (wsMany rest)

/-- The regex method `.test`: does the meta-directive pattern match at
some start position of the text? -/
def testMeta (value : List Char) : List Char → Bool
  | [] => metaAt value []
  | c :: rest => metaAt value (c :: rest) || testMeta value rest

/-- `checkSitemapMeta(html)`: the pair `(include, exclude)` of the two
directive tests. -/
def checkSitemapMeta (html : String) : Bool × Bool :=
  (testMeta "include".data html.data, testMeta "exclude".data html.data)

/-- The tri-state classification verdict the specification ascribes to a
page: the `include` test wins, otherwise the `exclude` test, otherwise
the page is unmarked. -/
inductive Verdict where
  | Include
  | Exclude
  | Unspecified
deriving DecidableEq, Repr

/-- The classification a page text receives in the walker's decision
logic: `if (include) ... else if (exclude) ... else ...`. -/
def classify (html : String) : Verdict :=
  if (checkSitemapMeta html).1 then .Include
  else if (checkSitemapMeta html).2 then .Exclude
  else .Unspecified

example : extractTitle "<TITLE>  Home  </TITLE>" = some "Home" := by decide

example : extractTitle "<p>no pair here</p>" = none := by decide

example : classify "<meta name=\"sitemap\" content=\"include\">" = .Include := by decide

example : classify "<meta content=\"include\" name=\"sitemap\">" = .Unspecified := by decide

example : classify "<META NAME=\"SITEMAP\" CONTENT=\"EXCLUDE\"  />" = .Exclude := by decide

/-! ## Filesystem model and tree builder

A directory's contents are a list of entries, each a file (with its text)
or a subdirectory.  `buildTree` is the recursive walker: `name` stands
for `path.basename(currentPath)`, `entries` for
`fs.readdirSync(currentPath)`, and `rel` for the `relativePath`
argument.  This model covers runs in which every filesystem access
succeeds; the variant with failing accesses follows below. -/

/-- A filesystem entry: a readable file with its contents, or a readable
directory with its entries. -/
inductive FSEntry where
  | file (name content : String)
  | dir (name : String) (entries : List FSEntry)

/-- A node of the exported tree: a leaf for an included page (fields
`name`, `path`, `title`, `sitemap`) or a directory node (fields `name`,
`children`). -/
inductive Node where
  | page (name path title : String) (sitemap : Bool)
  | dir (name : String) (children : List Node)

mutual

/-- The walker `buildTree(currentPath, relativePath)`: collect the
children produced by the entry loop and return a directory node when at
least one child was produced, `null` otherwise. -/
def buildTree (name : String) (entries : List FSEntry) (rel : String) : Option Node :=
  let children := buildChildren name rel entries
  if 0 < children.length then some (.dir name children) else none

/-- The entry loop of `buildTree`: a subdirectory contributes its
recursive result when that is not `null`; a file whose name ends in
`.html` is read, classified and, when the `include` test succeeds,
contributes a leaf node carrying the joined relative path and the
extracted title with file-name fallback; `exclude` and unmarked pages
and non-page files contribute nothing. -/
def buildChildren (name rel : String) : List FSEntry → List Node
  | [] => []
  | .dir n es :: rest =>
    (match buildTree n es (pjoin rel name) with
     | some child => [child]
     | none => []) ++ buildChildren name rel rest
  | .file n c :: rest =>
    (if isHtmlName n then
       if (checkSitemapMeta c).1 then
         [Node.page n (fixSlashes (pjoin (pjoin rel name) n)) (jsOr (extractTitle c) n) true]
       else if (checkSitemapMeta c).2 then []
       else []
     else []) ++ buildChildren name rel rest

end

/-- Specification-side predicate: does the entry list contain, directly
or at any depth below it, a page file whose classification verdict is
`Include`? -/
def hasIncludedPage : List FSEntry → Bool
  | [] => false
  | .file n c :: rest =>
    (isHtmlName n && decide (classify c = Verdict.Include)) || hasIncludedPage rest
  | .dir _ es :: rest => hasIncludedPage es || hasIncludedPage rest

/-! ## Walker with failing filesystem accesses

The same walker over a filesystem in which a directory enumeration or a
file read may fail.  `readdirSync` on a `badDir` and `readFileSync` on a
`badFile` throw; the exception propagates out of the recursion, which the
`Except` monad makes explicit.  A `badFile` whose name does not end in
`.html` is never read and so never fails. -/

/-- A filesystem entry in the failure-aware model: additionally an
unreadable file or an unenumerable directory. -/
inductive EFSEntry where
  | file (name content : String)
  | badFile (name : String)
  | dir (name : String) (entries : List EFSEntry)
  | badDir (name : String)

mutual

/-- The walker with exception propagation: as `buildTree`, except that a
thrown filesystem error aborts the recursion and propagates. -/
def buildTreeExc (name : String) (entries : List EFSEntry) (rel : String) :
    Except String (Option Node) :=
  match buildKidsExc name rel entries with
  | .error e => .error e
  | .ok children =>
    if 0 < children.length then .ok (some (.dir name children)) else .ok none

/-- The entry loop with exception propagation: the first failing access
in loop order aborts the remaining walk. -/
def buildKidsExc (name rel : String) : List EFSEntry → Except String (List Node)
  | [] => .ok []
  | .dir n es :: rest =>
    match buildTreeExc n es (pjoin rel name) with
    | .error e => .error e
    | .ok child =>
      match buildKidsExc name rel rest with
      | .error e => .error e
      | .ok tail =>
        .ok ((match child with | some c => [c] | none => []) ++ tail)
  | .badDir n :: _ => .error ("EACCES: permission denied, scandir " ++ n)
  | .file n c :: rest =>
    match buildKidsExc name rel rest with
    | .error e => .error e
    | .ok tail =>
      .ok ((if isHtmlName n then
              if (checkSitemapMeta c).1 then
                [Node.page n (fixSlashes (pjoin (pjoin rel name) n)) (jsOr (extractTitle c) n) true]
              else if (checkSitemapMeta c).2 then []
              else []
            else []) ++ tail)
  | .badFile n :: rest =>
    if isHtmlName n then .error ("EACCES: permission denied, open " ++ n)
    else buildKidsExc name rel rest

end

mutual

/-- The embedding of the failure-free filesystem model into the
failure-aware one. -/
def embedFS : FSEntry → EFSEntry
  | .file n c => .file n c
  | .dir n es => .dir n (embedFSList es)

/-- Pointwise embedding of an entry list. -/
def embedFSList : List FSEntry → List EFSEntry
  | [] => []
  | e :: rest => embedFS e :: embedFSList rest

end

/-- Does the walk over this entry list hit a failing filesystem access:
an unenumerable directory anywhere, or an unreadable page file (name
ending in `.html`) anywhere? -/
def hasBad : List EFSEntry → Bool
  | [] => false
  | .badDir _ :: _ => true
  | .badFile n :: rest => isHtmlName n || hasBad rest
  | .file _ _ :: rest => hasBad rest
  | .dir _ es :: rest => hasBad es || hasBad rest

/-! ## Serializer

`JSON.stringify(tree, null, 2)` followed by `fs.writeFileSync`.  The
stringifier is embedded with its two-space indentation and
insertion-order keys; `fs.writeFileSync` fails when the destination
directory is absent (the script never creates it) and otherwise replaces
the file's contents. -/

/-- Lower-case hexadecimal digit. -/
def hexDigit (n : Nat) : Char :=
  if n < 10 then Char.ofNat (48 + n) else Char.ofNat (87 + n)

/-- JSON escaping of one character, as `JSON.stringify` performs it. -/
def escChar (c : Char) : String :=
  if c = '"' then "\\\""
  else if c = '\\' then "\\\\"
  else if c = Char.ofNat 0x08 then "\\b"
  else if c = Char.ofNat 0x0C then "\\f"
  else if c = '\n' then "\\n"
  else if c = '\r' then "\\r"
  else if c = '\t' then "\\t"
  else if c.toNat < 0x20 then
    "\\u00" ++ String.mk [hexDigit (c.toNat / 16), hexDigit (c.toNat % 16)]
  else String.mk [c]

/-- A JSON string literal: the escaped text between double quotes. -/
def jsonStr (s : String) : String :=
  "\"" ++ String.join (s.data.map escChar) ++ "\""

/-- An indentation run of `n` spaces. -/
def sp (n : Nat) : String := String.mk (List.replicate n ' ')

mutual

/-- `JSON.stringify` of one tree node with indent width 2, printed at
nesting depth `d`: keys in insertion order (`name`, `path`, `title`,
`sitemap` on leaves; `name`, `children` on directories). -/
def nodeJson (d : Nat) : Node → String
  | .page n p t b =>
    "\x7b\n" ++ sp (2 * (d + 1)) ++ "\"name\": " ++ jsonStr n ++ ",\n"
      ++ sp (2 * (d + 1)) ++ "\"path\": " ++ jsonStr p ++ ",\n"
      ++ sp (2 * (d + 1)) ++ "\"title\": " ++ jsonStr t ++ ",\n"
      ++ sp (2 * (d + 1)) ++ "\"sitemap\": " ++ (if b then "true" else "false") ++ "\n"
      ++ sp (2 * d) ++ "\x7d"
  | .dir n cs =>
    "\x7b\n" ++ sp (2 * (d + 1)) ++ "\"name\": " ++ jsonStr n ++ ",\n"
      ++ sp (2 * (d + 1)) ++ "\"children\": "
      ++ (match cs with
          | [] => "[]"
          | _ => "[\n" ++ itemsJson (d + 2) cs ++ "\n" ++ sp (2 * (d + 1)) ++ "]")
      ++ "\n" ++ sp (2 * d) ++ "\x7d"

/-- The comma-and-newline separated items of a `children` array, each at
depth `d`. -/
def itemsJson (d : Nat) : List Node → String
  | [] => ""
  | [c] => sp (2 * d) ++ nodeJson d c
  | c :: c2 :: rest => sp (2 * d) ++ nodeJson d c ++ ",\n" ++ itemsJson d (c2 :: rest)

end

/-- `JSON.stringify(tree, null, 2)`: the word `null` for a pruned-away
root, the pretty-printed node otherwise. -/
def jsonStringify : Option Node → String
  | none => "null"
  | some t => nodeJson 0 t

/-- The state of the output location: whether the destination directory
`assets/data` exists, and the contents of `tree.json` when present. -/
structure OutFS where
  outDirExists : Bool
  outFile : Option String
deriving DecidableEq, Repr

/-- The observable outcome of a run: the completion log line, or the
caught error logged by the `catch` block. -/
inductive RunResult where
  | success
  | failure (msg : String)
deriving DecidableEq, Repr

/-- The main execution block: `try` the walk; when it returns, write the
stringified tree with `fs.writeFileSync` (which fails when the
destination directory is absent, leaving the previous contents alone);
any thrown error is caught and reported, with no write performed. -/
def runMain (scan : Except String (Option Node)) (st : OutFS) : OutFS × RunResult :=
  match scan with
  | .error e => (st, .failure e)
  | .ok tree =>
    if st.outDirExists then
      ({ st with outFile := some (jsonStringify tree) }, .success)
    else (st, .failure "ENOENT: no such file or directory")

/-- A whole run of the script over the failure-aware filesystem: the
walk from the scan root, then the serializer. -/
def runExport (rootName : String) (entries : List EFSEntry) (st : OutFS) :
    OutFS × RunResult :=
  runMain (buildTreeExc rootName entries "") st

example :
    buildTree "root" [.dir "sub" [.file "a.html" "<meta name=\"sitemap\" content=\"include\"><title>A</title>"]] ""
      = some (.dir "root" [.dir "sub" [.page "a.html" "root/sub/a.html" "A" true]]) := by
  simp +decide [buildTree, buildChildren, pjoin]

example :
    buildTree "root" [.dir "sub" [.file "a.html" "<meta name=\"sitemap\" content=\"exclude\">"]] "" = none := by
  simp +decide [buildTree, buildChildren, pjoin]

/-! ## Basic lemmas about the classifier and the walker -/

theorem classify_eq_include {c : String} :
    classify c = Verdict.Include ↔ (checkSitemapMeta c).1 = true := by
  unfold classify
  by_cases h1 : (checkSitemapMeta c).1 = true <;>
    by_cases h2 : (checkSitemapMeta c).2 = true <;> simp [h1, h2]

theorem classify_eq_exclude {c : String} :
    classify c = Verdict.Exclude ↔
      (checkSitemapMeta c).1 = false ∧ (checkSitemapMeta c).2 = true := by
  unfold classify
  by_cases h1 : (checkSitemapMeta c).1 = true <;>
    by_cases h2 : (checkSitemapMeta c).2 = true <;> simp [h1, h2]

theorem classify_eq_unspecified {c : String} :
    classify c = Verdict.Unspecified ↔
      (checkSitemapMeta c).1 = false ∧ (checkSitemapMeta c).2 = false := by
  unfold classify
  by_cases h1 : (checkSitemapMeta c).1 = true <;>
    by_cases h2 : (checkSitemapMeta c).2 = true <;> simp [h1, h2]

theorem mem_optList {o : Option Node} {t : Node} :
    t ∈ (match o with | some c => [c] | none => ([] : List Node)) ↔ o = some t := by
  cases o <;> simp [eq_comm]

/-- The leaf a file entry contributes in directory `name` reached through
`rel`. -/
def pageNode (rel name n c : String) : Node :=
  Node.page n (fixSlashes (pjoin (pjoin rel name) n)) (jsOr (extractTitle c) n) true

theorem mem_fileHead {name rel n c : String} {t : Node} :
    t ∈ (if isHtmlName n then
           if (checkSitemapMeta c).1 then
             [pageNode rel name n c]
           else if (checkSitemapMeta c).2 then []
           else []
         else ([] : List Node)) ↔
      isHtmlName n = true ∧ (checkSitemapMeta c).1 = true ∧ t = pageNode rel name n c := by
  by_cases h1 : isHtmlName n = true <;>
    by_cases h2 : (checkSitemapMeta c).1 = true <;>
      by_cases h3 : (checkSitemapMeta c).2 = true <;>
        simp [h1, h2, h3, eq_comm]

theorem mem_buildChildren {name rel : String} {entries : List FSEntry} {t : Node} :
    t ∈ buildChildren name rel entries ↔
      (∃ n es, FSEntry.dir n es ∈ entries ∧ buildTree n es (pjoin rel name) = some t) ∨
      (∃ n c, FSEntry.file n c ∈ entries ∧ isHtmlName n = true ∧
        (checkSitemapMeta c).1 = true ∧ t = pageNode rel name n c) := by
  induction entries with
  | nil => simp [buildChildren]
  | cons e rest ih =>
    cases e with
    | dir n0 es0 =>
      rw [buildChildren]
      simp only [List.mem_append, ih, mem_optList, List.mem_cons]
      constructor
      · rintro (h | (⟨n, es, hmem, hbt⟩ | ⟨n, c, hmem, h1, h2, h3⟩))
        · exact Or.inl ⟨n0, es0, Or.inl rfl, h⟩
        · exact Or.inl ⟨n, es, Or.inr hmem, hbt⟩
        · exact Or.inr ⟨n, c, Or.inr hmem, h1, h2, h3⟩
      · rintro (⟨n, es, hmem | hmem, hbt⟩ | ⟨n, c, hmem | hmem, h1, h2, h3⟩)
        · cases hmem; exact Or.inl hbt
        · exact Or.inr (Or.inl ⟨n, es, hmem, hbt⟩)
        · cases hmem
        · exact Or.inr (Or.inr ⟨n, c, hmem, h1, h2, h3⟩)
    | file n0 c0 =>
      rw [buildChildren]
      simp only [List.mem_append, ih]
      rw [show (if isHtmlName n0 then
           if (checkSitemapMeta c0).1 then
             [Node.page n0 (fixSlashes (pjoin (pjoin rel name) n0)) (jsOr (extractTitle c0) n0) true]
           else if (checkSitemapMeta c0).2 then []
           else []
         else ([] : List Node)) =
         (if isHtmlName n0 then
           if (checkSitemapMeta c0).1 then
             [pageNode rel name n0 c0]
           else if (checkSitemapMeta c0).2 then []
           else []
         else ([] : List Node)) from rfl]
      simp only [List.mem_cons, mem_fileHead]
      constructor
      · rintro (⟨h1, h2, h3⟩ | (⟨n, es, hmem, hbt⟩ | ⟨n, c, hmem, ha, hb, hc⟩))
        · exact Or.inr ⟨n0, c0, Or.inl rfl, h1, h2, h3⟩
        · exact Or.inl ⟨n, es, Or.inr hmem, hbt⟩
        · exact Or.inr ⟨n, c, Or.inr hmem, ha, hb, hc⟩
      · rintro (⟨n, es, hmem | hmem, hbt⟩ | ⟨n, c, hmem | hmem, ha, hb, hc⟩)
        · cases hmem
        · exact Or.inr (Or.inl ⟨n, es, hmem, hbt⟩)
        · cases hmem; exact Or.inl ⟨ha, hb, hc⟩
        · exact Or.inr (Or.inr ⟨n, c, hmem, ha, hb, hc⟩)

theorem sizeOf_dir_entries_lt {n : String} {es entries : List FSEntry}
    (h : FSEntry.dir n es ∈ entries) : sizeOf es < sizeOf entries := by
  have h1 := List.sizeOf_lt_of_mem h
  have h2 : sizeOf es < sizeOf (FSEntry.dir n es) := by
    simp
  omega

theorem buildTree_eq_none_iff {name rel : String} {entries : List FSEntry} :
    buildTree name entries rel = none ↔ buildChildren name rel entries = [] := by
  rw [buildTree]
  cases h : buildChildren name rel entries <;> simp [h]

theorem buildTree_eq_some_iff {name rel : String} {entries : List FSEntry} {t : Node} :
    buildTree name entries rel = some t ↔
      buildChildren name rel entries ≠ [] ∧ t = Node.dir name (buildChildren name rel entries) := by
  rw [buildTree]
  cases h : buildChildren name rel entries <;> simp [h, eq_comm]

theorem buildChildren_nil_aux (N : Nat) :
    ∀ entries : List FSEntry, sizeOf entries ≤ N → ∀ name rel : String,
      (buildChildren name rel entries = [] ↔ hasIncludedPage entries = false) := by
  induction N with
  | zero =>
    intro entries hle
    exfalso
    cases entries <;> simp at hle
  | succ N ih =>
    intro entries hle name rel
    match entries with
    | [] => simp [buildChildren, hasIncludedPage]
    | FSEntry.file n c :: rest =>
      have hrest : sizeOf rest ≤ N := by
        have h1 : sizeOf (FSEntry.file n c :: rest) = 1 + sizeOf (FSEntry.file n c) + sizeOf rest := by simp
        have h2 : 0 < sizeOf (FSEntry.file n c) := by simp
        omega
      rw [buildChildren, hasIncludedPage]
      simp only [List.append_eq_nil, ih rest hrest name rel, Bool.or_eq_false_iff,
        Bool.and_eq_false_iff]
      constructor
      · rintro ⟨hhead, htail⟩
        refine ⟨?_, htail⟩
        by_cases h1 : isHtmlName n = true
        · by_cases h2 : (checkSitemapMeta c).1 = true
          · simp [h1, h2] at hhead
          · right
            simp [decide_eq_false_iff_not, classify_eq_include, h2]
        · left
          simp [h1]
      · rintro ⟨hcls, htail⟩
        refine ⟨?_, htail⟩
        rcases hcls with h1 | h2
        · simp [h1]
        · have h2' : (checkSitemapMeta c).1 = false := by
            by_contra hc
            simp [Bool.not_eq_false] at hc
            rw [decide_eq_false_iff_not, classify_eq_include] at h2
            exact h2 hc
          by_cases h1 : isHtmlName n = true <;> simp [h1, h2']
    | FSEntry.dir n es :: rest =>
      have hes : sizeOf es ≤ N := by
        have h1 : sizeOf (FSEntry.dir n es :: rest) = 1 + sizeOf (FSEntry.dir n es) + sizeOf rest := by simp
        have h2 : sizeOf (FSEntry.dir n es) = 1 + sizeOf n + sizeOf es := by simp
        have h3 : 0 < sizeOf rest := by cases rest <;> simp
        omega
      have hrest : sizeOf rest ≤ N := by
        have h1 : sizeOf (FSEntry.dir n es :: rest) = 1 + sizeOf (FSEntry.dir n es) + sizeOf rest := by simp
        have h2 : 0 < sizeOf (FSEntry.dir n es) := by simp
        omega
      rw [buildChildren, hasIncludedPage]
      simp only [List.append_eq_nil, ih rest hrest name rel, Bool.or_eq_false_iff]
      have hsub : buildTree n es (pjoin rel name) = none ↔ hasIncludedPage es = false := by
        rw [buildTree_eq_none_iff]
        exact ih es hes n (pjoin rel name)
      constructor
      · rintro ⟨hhead, htail⟩
        refine ⟨?_, htail⟩
        rw [← hsub]
        cases hbt : buildTree n es (pjoin rel name) with
        | none => rfl
        | some child => simp [hbt] at hhead
      · rintro ⟨hinc, htail⟩
        refine ⟨?_, htail⟩
        rw [← hsub] at hinc
        simp [hinc]

theorem buildChildren_eq_nil_iff {name rel : String} {entries : List FSEntry} :
    buildChildren name rel entries = [] ↔ hasIncludedPage entries = false :=
  buildChildren_nil_aux (sizeOf entries) entries (Nat.le_refl _) name rel

theorem buildTree_isSome_iff {name rel : String} {entries : List FSEntry} :
    (buildTree name entries rel).isSome = hasIncludedPage entries := by
  cases hip : hasIncludedPage entries with
  | false =>
    have : buildTree name entries rel = none := by
      rw [buildTree_eq_none_iff, buildChildren_eq_nil_iff]
      exact hip
    simp [this]
  | true =>
    cases hbt : buildTree name entries rel with
    | none =>
      rw [buildTree_eq_none_iff, buildChildren_eq_nil_iff] at hbt
      rw [hip] at hbt
      cases hbt
    | some t => simp

/-! ## Locating directories and pages

`DirAt entries p es` relates the scan root's entry list to the entry
list of a directory reached by following the chain `p` of directory
names; `dirPathsOf`/`pagePathsOf` collect the name chains of the
directory nodes and leaf nodes of an output tree.  Both sides speak of
name chains, so presence of a directory or page in the output is a
statement about these chains. -/

/-- The directory of the scanned filesystem reached from an entry list by
following the named subdirectories along `p`. -/
inductive DirAt : List FSEntry → List String → List FSEntry → Prop where
  | here (es : List FSEntry) : DirAt es [] es
  | there {es : List FSEntry} {p : List String} {res : List FSEntry}
      (n : String) (es' : List FSEntry)
      (hmem : FSEntry.dir n es' ∈ es) (ht : DirAt es' p res) :
      DirAt es (n :: p) res

mutual

/-- The name chains of all directory nodes inside an output tree,
including the tree's own root when it is a directory node. -/
def dirPathsOf : Node → List (List String)
  | .page _ _ _ _ => []
  | .dir n cs => [n] :: (dirPathsList cs).map (fun q => n :: q)

/-- Union of `dirPathsOf` over a children list. -/
def dirPathsList : List Node → List (List String)
  | [] => []
  | c :: rest => dirPathsOf c ++ dirPathsList rest

end

/-- The name chains of directory nodes strictly below the root of the
returned tree (the chains are relative to the scan root, whose own node
carries the scan root's base name). -/
def dirPathsBelow : Option Node → List (List String)
  | none => []
  | some (.page _ _ _ _) => []
  | some (.dir _ cs) => dirPathsList cs

theorem mem_dirPathsList {x : List String} {cs : List Node} :
    x ∈ dirPathsList cs ↔ ∃ c ∈ cs, x ∈ dirPathsOf c := by
  induction cs with
  | nil => simp [dirPathsList]
  | cons c rest ih =>
    rw [dirPathsList]
    simp only [List.mem_append, ih, List.mem_cons]
    constructor
    · rintro (h | ⟨c', hmem, h⟩)
      · exact ⟨c, Or.inl rfl, h⟩
      · exact ⟨c', Or.inr hmem, h⟩
    · rintro ⟨c', hmem | hmem, h⟩
      · cases hmem; exact Or.inl h
      · exact Or.inr ⟨c', hmem, h⟩

theorem mem_dirPathsOf_dir {x : List String} {n : String} {cs : List Node} :
    x ∈ dirPathsOf (Node.dir n cs) ↔
      x = [n] ∨ ∃ q, q ∈ dirPathsList cs ∧ x = n :: q := by
  rw [dirPathsOf]
  simp only [List.mem_cons, List.mem_map]
  constructor
  · rintro (h | ⟨q, hq, rfl⟩)
    · exact Or.inl h
    · exact Or.inr ⟨q, hq, rfl⟩
  · rintro (h | ⟨q, hq, rfl⟩)
    · exact Or.inl h
    · exact Or.inr ⟨q, hq, rfl⟩

theorem hasIncludedPage_of_mem_dir {n : String} {es entries : List FSEntry}
    (hmem : FSEntry.dir n es ∈ entries) (hinc : hasIncludedPage es = true) :
    hasIncludedPage entries = true := by
  induction entries with
  | nil => cases hmem
  | cons e rest ih =>
    rcases List.mem_cons.mp hmem with h | h
    · subst h
      rw [hasIncludedPage]
      simp [hinc]
    · cases e <;> rw [hasIncludedPage] <;> simp [ih h]

theorem hasIncludedPage_of_dirAt {entries : List FSEntry} {p : List String}
    {res : List FSEntry} (hda : DirAt entries p res)
    (hinc : hasIncludedPage res = true) : hasIncludedPage entries = true := by
  induction hda with
  | here => exact hinc
  | there n es' hmem ht ih => exact hasIncludedPage_of_mem_dir hmem (ih hinc)

theorem dirPresent_aux (N : Nat) :
    ∀ entries : List FSEntry, sizeOf entries ≤ N →
      ∀ (name rel : String) (p : List String), p ≠ [] →
        (p ∈ dirPathsBelow (buildTree name entries rel) ↔
          ∃ es, DirAt entries p es ∧ hasIncludedPage es = true) := by
  induction N with
  | zero =>
    intro entries hle
    exfalso
    cases entries <;> simp at hle
  | succ N ih =>
    intro entries hle name rel p hp
    obtain ⟨n, q, rfl⟩ : ∃ n q, p = n :: q := by
      cases p with
      | nil => exact absurd rfl hp
      | cons n q => exact ⟨n, q, rfl⟩
    cases hbt : buildTree name entries rel with
    | none =>
      simp only [dirPathsBelow, List.not_mem_nil, false_iff]
      rintro ⟨es, hda, hinc⟩
      have h1 : hasIncludedPage entries = true := hasIncludedPage_of_dirAt hda hinc
      have h2 : (buildTree name entries rel).isSome = hasIncludedPage entries :=
        buildTree_isSome_iff
      rw [hbt, h1] at h2
      cases h2
    | some t =>
      obtain ⟨hne, rfl⟩ := buildTree_eq_some_iff.mp hbt
      simp only [dirPathsBelow]
      constructor
      · intro hmem
        obtain ⟨c, hcmem, hcp⟩ := mem_dirPathsList.mp hmem
        rcases mem_buildChildren.mp hcmem with
          ⟨m, es1, hdmem, hbt1⟩ | ⟨m, cc, hfmem, h1, h2, rfl⟩
        · obtain ⟨hne1, rfl⟩ := buildTree_eq_some_iff.mp hbt1
          have hes1 : sizeOf es1 ≤ N := by
            have := sizeOf_dir_entries_lt hdmem
            omega
          have hinc1 : hasIncludedPage es1 = true := by
            have hiso : (buildTree m es1 (pjoin rel name)).isSome = hasIncludedPage es1 :=
              buildTree_isSome_iff
            rw [hbt1] at hiso
            exact hiso.symm
          rcases mem_dirPathsOf_dir.mp hcp with h | ⟨q', hq', heq⟩
          · obtain ⟨rfl, rfl⟩ : n = m ∧ q = [] := by
              simpa using h
            exact ⟨es1, DirAt.there n es1 hdmem (DirAt.here es1), hinc1⟩
          · obtain ⟨rfl, rfl⟩ : n = m ∧ q = q' := by
              simpa using heq
            by_cases hqnil : q = []
            · subst hqnil
              exact ⟨es1, DirAt.there n es1 hdmem (DirAt.here es1), hinc1⟩
            · have hih := (ih es1 hes1 n (pjoin rel name) q hqnil).mp
              rw [hbt1] at hih
              simp only [dirPathsBelow] at hih
              obtain ⟨es, hda, hinc⟩ := hih hq'
              exact ⟨es, DirAt.there n es1 hdmem hda, hinc⟩
        · simp [pageNode, dirPathsOf] at hcp
      · rintro ⟨es, hda, hinc⟩
        cases hda with
        | there m es1 hdmem hda1 =>
          have hinc1 : hasIncludedPage es1 = true := hasIncludedPage_of_dirAt hda1 hinc
          have hes1 : sizeOf es1 ≤ N := by
            have := sizeOf_dir_entries_lt hdmem
            omega
          have hsome : (buildTree n es1 (pjoin rel name)).isSome = true := by
            rw [buildTree_isSome_iff]
            exact hinc1
          obtain ⟨c, hbt1⟩ := Option.isSome_iff_exists.mp hsome
          have hcmem : c ∈ buildChildren name rel entries :=
            mem_buildChildren.mpr (Or.inl ⟨n, es1, hdmem, hbt1⟩)
          obtain ⟨hne1, rfl⟩ := buildTree_eq_some_iff.mp hbt1
          refine mem_dirPathsList.mpr ⟨_, hcmem, ?_⟩
          rw [mem_dirPathsOf_dir]
          cases hda1 with
          | here => exact Or.inl rfl
          | there m2 es2 hdmem2 hda2 =>
            right
            refine ⟨_, ?_, rfl⟩
            have hqres := (ih es1 hes1 n (pjoin rel name) _ (by simp)).mpr
              ⟨es, DirAt.there m2 es2 hdmem2 hda2, hinc⟩
            rw [hbt1] at hqres
            simpa [dirPathsBelow] using hqres

mutual

/-- The name chains of all leaf (page) nodes inside an output tree. -/
def pagePathsOf : Node → List (List String)
  | .page n _ _ _ => [[n]]
  | .dir n cs => (pagePathsList cs).map (fun q => n :: q)

/-- Union of `pagePathsOf` over a children list. -/
def pagePathsList : List Node → List (List String)
  | [] => []
  | c :: rest => pagePathsOf c ++ pagePathsList rest

end

/-- The name chains of page nodes strictly below the root of the
returned tree. -/
def pagePathsBelow : Option Node → List (List String)
  | none => []
  | some (.page _ _ _ _) => []
  | some (.dir _ cs) => pagePathsList cs

theorem mem_pagePathsList {x : List String} {cs : List Node} :
    x ∈ pagePathsList cs ↔ ∃ c ∈ cs, x ∈ pagePathsOf c := by
  induction cs with
  | nil => simp [pagePathsList]
  | cons c rest ih =>
    rw [pagePathsList]
    simp only [List.mem_append, ih, List.mem_cons]
    constructor
    · rintro (h | ⟨c', hmem, h⟩)
      · exact ⟨c, Or.inl rfl, h⟩
      · exact ⟨c', Or.inr hmem, h⟩
    · rintro ⟨c', hmem | hmem, h⟩
      · cases hmem; exact Or.inl h
      · exact Or.inr ⟨c', hmem, h⟩

theorem mem_pagePathsOf_page {x : List String} {n p t : String} {b : Bool} :
    x ∈ pagePathsOf (Node.page n p t b) ↔ x = [n] := by
  rw [pagePathsOf]
  simp

theorem mem_pagePathsOf_dir {x : List String} {n : String} {cs : List Node} :
    x ∈ pagePathsOf (Node.dir n cs) ↔ ∃ q, q ∈ pagePathsList cs ∧ x = n :: q := by
  rw [pagePathsOf]
  simp only [List.mem_map]
  constructor
  · rintro ⟨q, hq, rfl⟩
    exact ⟨q, hq, rfl⟩
  · rintro ⟨q, hq, rfl⟩
    exact ⟨q, hq, rfl⟩

theorem ne_nil_of_mem_pagePathsOf {x : List String} {c : Node}
    (h : x ∈ pagePathsOf c) : x ≠ [] := by
  cases c with
  | page n p t b =>
    rw [mem_pagePathsOf_page] at h
    simp [h]
  | dir n cs =>
    rw [mem_pagePathsOf_dir] at h
    obtain ⟨q, _, rfl⟩ := h
    simp

theorem hasIncludedPage_of_mem_file {n c : String} {entries : List FSEntry}
    (hmem : FSEntry.file n c ∈ entries) (hhtml : isHtmlName n = true)
    (hcls : classify c = Verdict.Include) : hasIncludedPage entries = true := by
  induction entries with
  | nil => cases hmem
  | cons e rest ih =>
    rcases List.mem_cons.mp hmem with h | h
    · subst h
      rw [hasIncludedPage]
      simp [hhtml, hcls]
    · cases e <;> rw [hasIncludedPage] <;> simp [ih h]

theorem append_singleton_eq_singleton {p : List String} {a b : String} :
    p ++ [a] = [b] ↔ p = [] ∧ a = b := by
  cases p with
  | nil => simp
  | cons x xs => simp

theorem pagePresent_aux (N : Nat) :
    ∀ entries : List FSEntry, sizeOf entries ≤ N →
      ∀ (name rel : String) (p : List String) (fn : String),
        ((p ++ [fn]) ∈ pagePathsBelow (buildTree name entries rel) ↔
          ∃ c, (∃ es, DirAt entries p es ∧ FSEntry.file fn c ∈ es) ∧
            isHtmlName fn = true ∧ classify c = Verdict.Include) := by
  induction N with
  | zero =>
    intro entries hle
    exfalso
    cases entries <;> simp at hle
  | succ N ih =>
    intro entries hle name rel p fn
    cases hbt : buildTree name entries rel with
    | none =>
      simp only [pagePathsBelow, List.not_mem_nil, false_iff]
      rintro ⟨c, ⟨es, hda, hfmem⟩, hhtml, hcls⟩
      have h1 : hasIncludedPage entries = true :=
        hasIncludedPage_of_dirAt hda (hasIncludedPage_of_mem_file hfmem hhtml hcls)
      have h2 : (buildTree name entries rel).isSome = hasIncludedPage entries :=
        buildTree_isSome_iff
      rw [hbt, h1] at h2
      cases h2
    | some t =>
      obtain ⟨hne, rfl⟩ := buildTree_eq_some_iff.mp hbt
      simp only [pagePathsBelow]
      constructor
      · intro hmem
        obtain ⟨c, hcmem, hcp⟩ := mem_pagePathsList.mp hmem
        rcases mem_buildChildren.mp hcmem with
          ⟨m, es1, hdmem, hbt1⟩ | ⟨m, cc, hfmem, h1, h2, rfl⟩
        · obtain ⟨hne1, rfl⟩ := buildTree_eq_some_iff.mp hbt1
          have hes1 : sizeOf es1 ≤ N := by
            have := sizeOf_dir_entries_lt hdmem
            omega
          rw [mem_pagePathsOf_dir] at hcp
          obtain ⟨q, hq, heq⟩ := hcp
          cases p with
          | nil =>
            exfalso
            obtain ⟨rfl, rfl⟩ : fn = m ∧ q = [] := by
              simpa using heq
            have := mem_pagePathsList.mp hq
            obtain ⟨c', hc'mem, hc'p⟩ := this
            exact ne_nil_of_mem_pagePathsOf hc'p rfl
          | cons p0 ps =>
            obtain ⟨rfl, heq2⟩ : p0 = m ∧ ps ++ [fn] = q := by
              simpa using heq
            subst heq2
            have hih := (ih es1 hes1 p0 (pjoin rel name) ps fn).mp
            rw [hbt1] at hih
            simp only [pagePathsBelow] at hih
            obtain ⟨c', ⟨es, hda, hfm⟩, hh, hc⟩ := hih hq
            exact ⟨c', ⟨es, DirAt.there p0 es1 hdmem hda, hfm⟩, hh, hc⟩
        · rw [show pageNode rel name m cc =
              Node.page m (fixSlashes (pjoin (pjoin rel name) m)) (jsOr (extractTitle cc) m) true
              from rfl, mem_pagePathsOf_page] at hcp
          obtain ⟨rfl, rfl⟩ : p = [] ∧ fn = m := append_singleton_eq_singleton.mp hcp
          exact ⟨cc, ⟨entries, DirAt.here entries, hfmem⟩, h1, classify_eq_include.mpr h2⟩
      · rintro ⟨c, ⟨es, hda, hfmem⟩, hhtml, hcls⟩
        cases hda with
        | here =>
          have hcmem : pageNode rel name fn c ∈ buildChildren name rel entries :=
            mem_buildChildren.mpr (Or.inr ⟨fn, c, hfmem, hhtml, classify_eq_include.mp hcls, rfl⟩)
          refine mem_pagePathsList.mpr ⟨_, hcmem, ?_⟩
          rw [show pageNode rel name fn c =
              Node.page fn (fixSlashes (pjoin (pjoin rel name) fn)) (jsOr (extractTitle c) fn) true
              from rfl, mem_pagePathsOf_page]
          simp
        | there m es1 hdmem hda1 =>
          have hinc1 : hasIncludedPage es1 = true :=
            hasIncludedPage_of_dirAt hda1 (hasIncludedPage_of_mem_file hfmem hhtml hcls)
          have hes1 : sizeOf es1 ≤ N := by
            have := sizeOf_dir_entries_lt hdmem
            omega
          have hsome : (buildTree m es1 (pjoin rel name)).isSome = true := by
            rw [buildTree_isSome_iff]
            exact hinc1
          obtain ⟨c', hbt1⟩ := Option.isSome_iff_exists.mp hsome
          have hcmem : c' ∈ buildChildren name rel entries :=
            mem_buildChildren.mpr (Or.inl ⟨m, es1, hdmem, hbt1⟩)
          obtain ⟨hne1, rfl⟩ := buildTree_eq_some_iff.mp hbt1
          refine mem_pagePathsList.mpr ⟨_, hcmem, ?_⟩
          rw [mem_pagePathsOf_dir]
          refine ⟨_, ?_, rfl⟩
          have hqres := (ih es1 hes1 m (pjoin rel name) _ fn).mpr
            ⟨c, ⟨es, hda1, hfmem⟩, hhtml, hcls⟩
          rw [hbt1] at hqres
          simpa [pagePathsBelow] using hqres

/-! ## Leaf path fields

For the claim about the `path` field of leaves, each leaf is paired with
the chain of node names leading to it from the root of the output
tree. -/

mutual

/-- The pairs (name chain from this node to a leaf, that leaf's `path`
field) for all leaves of an output tree. -/
def leafRecsOf : Node → List (List String × String)
  | .page n p _ _ => [([n], p)]
  | .dir n cs => (leafRecsList cs).map (fun r => (n :: r.1, r.2))

/-- Union of `leafRecsOf` over a children list. -/
def leafRecsList : List Node → List (List String × String)
  | [] => []
  | c :: rest => leafRecsOf c ++ leafRecsList rest

end

theorem mem_leafRecsList {r : List String × String} {cs : List Node} :
    r ∈ leafRecsList cs ↔ ∃ c ∈ cs, r ∈ leafRecsOf c := by
  induction cs with
  | nil => simp [leafRecsList]
  | cons c rest ih =>
    rw [leafRecsList]
    simp only [List.mem_append, ih, List.mem_cons]
    constructor
    · rintro (h | ⟨c', hmem, h⟩)
      · exact ⟨c, Or.inl rfl, h⟩
      · exact ⟨c', Or.inr hmem, h⟩
    · rintro ⟨c', hmem | hmem, h⟩
      · cases hmem; exact Or.inl h
      · exact Or.inr ⟨c', hmem, h⟩

theorem ne_nil_of_mem_leafRecsOf {r : List String × String} {c : Node}
    (h : r ∈ leafRecsOf c) : r.1 ≠ [] := by
  cases c with
  | page n p t b =>
    rw [leafRecsOf] at h
    simp at h
    simp [h]
  | dir n cs =>
    rw [leafRecsOf] at h
    simp only [List.mem_map] at h
    obtain ⟨r', _, heq⟩ := h
    rw [← heq]
    simp

/-- No backslash occurs in the string. -/
def noBS (s : String) : Bool := s.data.all (fun c => !(c = '\\'))

/-- A plausible filesystem name: nonempty and without backslashes. -/
def okName (n : String) : Bool := decide (n ≠ "") && noBS n

/-- All names inside the entry list are plausible: directory names are
nonempty and backslash-free, file names backslash-free. -/
def cleanNames : List FSEntry → Bool
  | [] => true
  | .file n _ :: rest => noBS n && cleanNames rest
  | .dir n es :: rest => (okName n && cleanNames es) && cleanNames rest

/-- Forward-slash join of a name chain. -/
def joinSlash : List String → String
  | [] => ""
  | [s] => s
  | s :: s2 :: rest => s ++ "/" ++ joinSlash (s2 :: rest)

/-- Join of a chain onto an already-accumulated relative path. -/
def prefJoin (rel s : String) : String := if rel = "" then s else rel ++ "/" ++ s

theorem fixSlashes_eq_self {s : String} (h : noBS s = true) : fixSlashes s = s := by
  unfold noBS at h
  unfold fixSlashes
  suffices hmap : ∀ l : List Char, l.all (fun c => !(c = '\\')) = true →
      l.map (fun c => if c = '\\' then '/' else c) = l by
    rw [hmap s.data h]
  intro l
  induction l with
  | nil => intro _; rfl
  | cons c cs ih =>
    intro hl
    rw [List.all_cons, Bool.and_eq_true] at hl
    obtain ⟨hc, hcs⟩ := hl
    have hcne : ¬ (c = '\\') := by simpa using hc
    simp [hcne, ih hcs]

theorem noBS_append {a b : String} (ha : noBS a = true) (hb : noBS b = true) :
    noBS (a ++ b) = true := by
  unfold noBS at *
  rw [List.all_eq_true] at *
  intro c hc
  rw [String.data_append] at hc
  rcases List.mem_append.mp hc with h | h
  · exact ha c h
  · exact hb c h

theorem noBS_slash : noBS "/" = true := by decide

theorem noBS_pjoin {a b : String} (ha : noBS a = true) (hb : noBS b = true) :
    noBS (pjoin a b) = true := by
  unfold pjoin
  by_cases h : a = ""
  · simp [h, hb]
  · simp only [if_neg h]
    exact noBS_append (noBS_append ha noBS_slash) hb

theorem append_slash_ne_empty {a b : String} : a ++ "/" ++ b ≠ "" := by
  intro h
  have hd := congrArg String.data h
  rw [String.data_append, String.data_append] at hd
  simp at hd

theorem pjoin_ne_empty {a b : String} (hb : b ≠ "") : pjoin a b ≠ "" := by
  unfold pjoin
  by_cases h : a = ""
  · simp [h, hb]
  · simp only [if_neg h]
    exact append_slash_ne_empty

theorem string_append_assoc (a b c : String) : a ++ b ++ c = a ++ (b ++ c) := by
  apply String.ext
  simp [String.data_append, List.append_assoc]

theorem prefJoin_pjoin {rel name s : String} (hname : name ≠ "") :
    prefJoin (pjoin rel name) s = prefJoin rel (name ++ "/" ++ s) := by
  unfold prefJoin pjoin
  by_cases h : rel = ""
  · simp [h, hname]
  · simp only [if_neg h, if_neg (append_slash_ne_empty (a := rel) (b := name))]
    apply String.ext
    simp [String.data_append, List.append_assoc]

theorem okName_spec {n : String} (h : okName n = true) : n ≠ "" ∧ noBS n = true := by
  unfold okName at h
  rw [Bool.and_eq_true, decide_eq_true_iff] at h
  exact h

theorem cleanNames_file {n c : String} {entries : List FSEntry}
    (h : cleanNames entries = true) (hmem : FSEntry.file n c ∈ entries) :
    noBS n = true := by
  induction entries with
  | nil => cases hmem
  | cons e rest ih =>
    rcases List.mem_cons.mp hmem with heq | hmem'
    · rw [← heq, cleanNames, Bool.and_eq_true] at h
      exact h.1
    · cases e <;> rw [cleanNames, Bool.and_eq_true] at h <;> exact ih h.2 hmem'

theorem cleanNames_dir {n : String} {es entries : List FSEntry}
    (h : cleanNames entries = true) (hmem : FSEntry.dir n es ∈ entries) :
    okName n = true ∧ cleanNames es = true := by
  induction entries with
  | nil => cases hmem
  | cons e rest ih =>
    rcases List.mem_cons.mp hmem with heq | hmem'
    · rw [← heq, cleanNames, Bool.and_eq_true] at h
      rw [Bool.and_eq_true] at h
      exact ⟨h.1.1, h.1.2⟩
    · cases e <;> rw [cleanNames, Bool.and_eq_true] at h <;> exact ih h.2 hmem'

theorem leafPath_aux (N : Nat) :
    ∀ entries : List FSEntry, sizeOf entries ≤ N →
      ∀ (name rel : String) (t : Node), buildTree name entries rel = some t →
        cleanNames entries = true → okName name = true → noBS rel = true →
        ∀ r ∈ leafRecsOf t, r.2 = prefJoin rel (joinSlash r.1) := by
  induction N with
  | zero =>
    intro entries hle
    exfalso
    cases entries <;> simp at hle
  | succ N ih =>
    intro entries hle name rel t hbt hclean hok hrel r hr
    obtain ⟨hnname, hbsname⟩ := okName_spec hok
    obtain ⟨hne, rfl⟩ := buildTree_eq_some_iff.mp hbt
    rw [leafRecsOf] at hr
    simp only [List.mem_map] at hr
    obtain ⟨r', hr', rfl⟩ := hr
    obtain ⟨c, hcmem, hrc⟩ := mem_leafRecsList.mp hr'
    rcases mem_buildChildren.mp hcmem with
      ⟨m, es1, hdmem, hbt1⟩ | ⟨m, cc, hfmem, h1, h2, rfl⟩
    · obtain ⟨hokm, hcleanes1⟩ := cleanNames_dir hclean hdmem
      obtain ⟨hmne, hbsm⟩ := okName_spec hokm
      have hes1 : sizeOf es1 ≤ N := by
        have := sizeOf_dir_entries_lt hdmem
        omega
      have hih := ih es1 hes1 m (pjoin rel name) c hbt1 hcleanes1 hokm
        (noBS_pjoin hrel hbsname) r' hrc
      obtain ⟨x, xs, hx⟩ : ∃ x xs, r'.1 = x :: xs := by
        cases hq : r'.1 with
        | nil => exact absurd hq (ne_nil_of_mem_leafRecsOf hrc)
        | cons x xs => exact ⟨x, xs, rfl⟩
      have hjoin : joinSlash (name :: r'.1) = name ++ "/" ++ joinSlash r'.1 := by
        rw [hx, joinSlash]
      simp only [hjoin, hih, prefJoin_pjoin hnname]
    · rw [show pageNode rel name m cc =
          Node.page m (fixSlashes (pjoin (pjoin rel name) m)) (jsOr (extractTitle cc) m) true
          from rfl, leafRecsOf] at hrc
      simp only [List.mem_singleton] at hrc
      subst hrc
      have hbsmm : noBS m = true := cleanNames_file hclean hfmem
      have hbspath : noBS (pjoin (pjoin rel name) m) = true :=
        noBS_pjoin (noBS_pjoin hrel hbsname) hbsmm
      simp only
      rw [fixSlashes_eq_self hbspath]
      have hjs : joinSlash [name, m] = name ++ "/" ++ m := by
        rw [joinSlash, joinSlash]
      rw [hjs]
      have : pjoin (pjoin rel name) m = prefJoin (pjoin rel name) m := rfl
      rw [this, prefJoin_pjoin hnname]

theorem ne_empty_of_isHtmlName {n : String} (h : isHtmlName n = true) : n ≠ "" := by
  intro heq
  rw [heq] at h
  exact absurd h (by decide)

theorem jsOr_ne_empty {t : Option String} {n : String} (hn : n ≠ "") :
    jsOr t n ≠ "" := by
  cases t with
  | none => exact hn
  | some s => by_cases hs : s = "" <;> simp [jsOr, hs, hn]

/-! ## Claim theorems -/

/-- C1: for every directory below the scan root, a node for that
directory is present in the tree returned by `buildTree` iff the
directory contains, directly or at any depth below it, at least one page
file classified include; moreover any call on a directory whose entire
transitive content is excluded, unmarked or non-page files returns
`none`, so such a directory appears nowhere in the output, at arbitrary
nesting depth. -/
theorem C1_directory_presence (name rel : String) (entries : List FSEntry)
    (p : List String) (hp : p ≠ []) :
    (p ∈ dirPathsBelow (buildTree name entries rel) ↔
      ∃ es, DirAt entries p es ∧ hasIncludedPage es = true) ∧
    (buildTree name entries rel = none ↔ hasIncludedPage entries = false) := by
  refine ⟨dirPresent_aux (sizeOf entries) entries (Nat.le_refl _) name rel p hp, ?_⟩
  rw [buildTree_eq_none_iff, buildChildren_eq_nil_iff]

theorem C1_directory_presence_witness :
    ["sub"] ∈ dirPathsBelow (buildTree "root"
      [FSEntry.dir "sub" [FSEntry.file "a.html" "<meta name=\"sitemap\" content=\"include\">"]] "") ∧
    buildTree "root" [FSEntry.dir "empty" [FSEntry.file "b.html" "<meta name=\"sitemap\" content=\"exclude\">"]] "" = none := by
  constructor
  · exact (C1_directory_presence "root" ""
      [FSEntry.dir "sub" [FSEntry.file "a.html" "<meta name=\"sitemap\" content=\"include\">"]]
      ["sub"] (by decide)).1.mpr
      ⟨[FSEntry.file "a.html" "<meta name=\"sitemap\" content=\"include\">"],
        DirAt.there "sub" _ (List.mem_singleton.mpr rfl) (DirAt.here _),
        by simp +decide [hasIncludedPage]⟩
  · exact (C1_directory_presence "root" ""
      [FSEntry.dir "empty" [FSEntry.file "b.html" "<meta name=\"sitemap\" content=\"exclude\">"]]
      ["x"] (by decide)).2.mpr
      (by simp +decide [hasIncludedPage])

/-- C3: a page text in which both the include and the exclude directive
are present is classified include, and its leaf node is added to the
children the walker builds (the tie-break resolves to inclusion). -/
theorem C3_both_directives_include (html : String)
    (hinc : (checkSitemapMeta html).1 = true) (hexc : (checkSitemapMeta html).2 = true)
    (name rel n : String) (entries : List FSEntry)
    (hmem : FSEntry.file n html ∈ entries) (hhtml : isHtmlName n = true) :
    classify html = Verdict.Include ∧
      pageNode rel name n html ∈ buildChildren name rel entries :=
  ⟨classify_eq_include.mpr hinc,
    mem_buildChildren.mpr (Or.inr ⟨n, html, hmem, hhtml, hinc, rfl⟩)⟩

theorem C3_both_directives_include_witness :
    classify "<meta name=\"sitemap\" content=\"include\"><meta name=\"sitemap\" content=\"exclude\">" = Verdict.Include ∧
      pageNode "" "root" "b.html"
        "<meta name=\"sitemap\" content=\"include\"><meta name=\"sitemap\" content=\"exclude\">"
        ∈ buildChildren "root" ""
          [FSEntry.file "b.html"
            "<meta name=\"sitemap\" content=\"include\"><meta name=\"sitemap\" content=\"exclude\">"] :=
  C3_both_directives_include _ (by decide) (by decide) "root" "" "b.html" _
    (List.mem_singleton.mpr rfl) (by decide)

/-- C4: every page file classified include yields a leaf node whose
`sitemap` field is `true` and whose `title` is nonempty: the extracted
title when extraction succeeds with a nonempty trim, and the file's own
name when extraction yields nothing or an empty-trimming title. -/
theorem C4_included_page_leaf (name rel n c : String) (entries : List FSEntry)
    (hmem : FSEntry.file n c ∈ entries) (hhtml : isHtmlName n = true)
    (hcls : classify c = Verdict.Include) :
    Node.page n (fixSlashes (pjoin (pjoin rel name) n)) (jsOr (extractTitle c) n) true
        ∈ buildChildren name rel entries ∧
      jsOr (extractTitle c) n ≠ "" ∧
      (∀ s, extractTitle c = some s → s ≠ "" → jsOr (extractTitle c) n = s) ∧
      ((extractTitle c = none ∨ extractTitle c = some "") → jsOr (extractTitle c) n = n) := by
  refine ⟨?_, jsOr_ne_empty (ne_empty_of_isHtmlName hhtml), ?_, ?_⟩
  · exact mem_buildChildren.mpr
      (Or.inr ⟨n, c, hmem, hhtml, classify_eq_include.mp hcls, rfl⟩)
  · intro s hs hne
    rw [hs]
    simp [jsOr, hne]
  · rintro (h | h) <;> rw [h] <;> simp [jsOr]

theorem C4_included_page_leaf_witness :
    Node.page "a.html"
        (fixSlashes (pjoin (pjoin "" "root") "a.html"))
        (jsOr (extractTitle "<meta name=\"sitemap\" content=\"include\"><title> A </title>") "a.html") true
        ∈ buildChildren "root" ""
          [FSEntry.file "a.html" "<meta name=\"sitemap\" content=\"include\"><title> A </title>"] ∧
      jsOr (extractTitle "<meta name=\"sitemap\" content=\"include\"><title> A </title>") "a.html" ≠ "" ∧
      (∀ s, extractTitle "<meta name=\"sitemap\" content=\"include\"><title> A </title>" = some s →
        s ≠ "" →
        jsOr (extractTitle "<meta name=\"sitemap\" content=\"include\"><title> A </title>") "a.html" = s) ∧
      ((extractTitle "<meta name=\"sitemap\" content=\"include\"><title> A </title>" = none ∨
          extractTitle "<meta name=\"sitemap\" content=\"include\"><title> A </title>" = some "") →
        jsOr (extractTitle "<meta name=\"sitemap\" content=\"include\"><title> A </title>") "a.html" = "a.html") :=
  C4_included_page_leaf "root" "" "a.html" _ _ (List.mem_singleton.mpr rfl)
    (by decide) (by decide)

/-- C5: a file node appears in the output tree, at any depth, iff the
corresponding page file's classification verdict is include; page files
classified exclude or unspecified are never represented. -/
theorem C5_file_presence (name rel : String) (entries : List FSEntry)
    (p : List String) (fn : String) :
    (p ++ [fn]) ∈ pagePathsBelow (buildTree name entries rel) ↔
      ∃ c, (∃ es, DirAt entries p es ∧ FSEntry.file fn c ∈ es) ∧
        isHtmlName fn = true ∧ classify c = Verdict.Include :=
  pagePresent_aux (sizeOf entries) entries (Nat.le_refl _) name rel p fn

/-- C10: the `path` field of every leaf node of a run from the scan root
equals the forward-slash join of the scan root's base name, the names of
the intermediate directories and the file name; in particular it begins
with the scan root's base name rather than being relative to the scan
root. -/
theorem C10_leaf_paths (rootName : String) (entries : List FSEntry) (t : Node)
    (hbt : buildTree rootName entries "" = some t)
    (hclean : cleanNames entries = true) (hok : okName rootName = true) :
    ∀ r ∈ leafRecsOf t, r.2 = joinSlash r.1 ∧ r.1.head? = some rootName := by
  intro r hr
  have h1 := leafPath_aux (sizeOf entries) entries (Nat.le_refl _) rootName "" t hbt
    hclean hok (by decide) r hr
  constructor
  · rw [h1]
    simp [prefJoin]
  · obtain ⟨hne, rfl⟩ := buildTree_eq_some_iff.mp hbt
    rw [leafRecsOf] at hr
    simp only [List.mem_map] at hr
    obtain ⟨r', _, rfl⟩ := hr
    rfl

theorem C10_leaf_paths_witness :
    "root/sub/a.html" = joinSlash ["root", "sub", "a.html"] ∧
    (["root", "sub", "a.html"] : List String).head? = some "root" :=
  C10_leaf_paths "root"
    [FSEntry.dir "sub" [FSEntry.file "a.html" "<meta name=\"sitemap\" content=\"include\">"]]
    (Node.dir "root" [Node.dir "sub" [Node.page "a.html" "root/sub/a.html" "a.html" true]])
    (by simp +decide [buildTree, buildChildren, pjoin])
    (by simp +decide [cleanNames, okName, noBS]) (by decide)
    (["root", "sub", "a.html"], "root/sub/a.html")
    (by simp [leafRecsOf, leafRecsList])

/-! ## Bridging the two walker models -/

theorem buildKidsExc_embed_aux (N : Nat) :
    ∀ entries : List FSEntry, sizeOf entries ≤ N → ∀ name rel : String,
      buildKidsExc name rel (embedFSList entries) =
        Except.ok (buildChildren name rel entries) := by
  induction N with
  | zero =>
    intro entries hle
    exfalso
    cases entries <;> simp at hle
  | succ N ih =>
    intro entries hle name rel
    match entries with
    | [] => rw [embedFSList, buildKidsExc, buildChildren]
    | FSEntry.file n c :: rest =>
      have hrest : sizeOf rest ≤ N := by
        have h1 : sizeOf (FSEntry.file n c :: rest) = 1 + sizeOf (FSEntry.file n c) + sizeOf rest := by simp
        have h2 : 0 < sizeOf (FSEntry.file n c) := by simp
        omega
      rw [embedFSList, embedFS, buildKidsExc, buildChildren, ih rest hrest name rel]
    | FSEntry.dir n es :: rest =>
      have hes : sizeOf es ≤ N := by
        have h1 : sizeOf (FSEntry.dir n es :: rest) = 1 + sizeOf (FSEntry.dir n es) + sizeOf rest := by simp
        have h2 : sizeOf (FSEntry.dir n es) = 1 + sizeOf n + sizeOf es := by simp
        have h3 : 0 < sizeOf rest := by cases rest <;> simp
        omega
      have hrest : sizeOf rest ≤ N := by
        have h1 : sizeOf (FSEntry.dir n es :: rest) = 1 + sizeOf (FSEntry.dir n es) + sizeOf rest := by simp
        have h2 : 0 < sizeOf (FSEntry.dir n es) := by simp
        omega
      rw [embedFSList, embedFS, buildKidsExc, buildTreeExc, ih es hes n (pjoin rel name),
        ih rest hrest name rel, buildChildren, buildTree]
      cases hc : buildChildren n (pjoin rel name) es <;> simp [hc]

/-- The failure-aware walker agrees with the plain walker on a
filesystem without failing accesses. -/
theorem buildTreeExc_embed (name rel : String) (entries : List FSEntry) :
    buildTreeExc name (embedFSList entries) rel =
      Except.ok (buildTree name entries rel) := by
  rw [buildTreeExc, buildKidsExc_embed_aux (sizeOf entries) entries (Nat.le_refl _) name rel,
    buildTree]
  by_cases h : 0 < (buildChildren name rel entries).length <;> simp [h]

theorem buildKidsExc_error_aux (N : Nat) :
    ∀ entries : List EFSEntry, sizeOf entries ≤ N → ∀ name rel : String,
      (hasBad entries = false → ∃ cs, buildKidsExc name rel entries = Except.ok cs) ∧
      (hasBad entries = true → ∃ e, buildKidsExc name rel entries = Except.error e) := by
  induction N with
  | zero =>
    intro entries hle
    exfalso
    cases entries <;> simp at hle
  | succ N ih =>
    intro entries hle name rel
    match entries with
    | [] =>
      refine ⟨fun _ => ⟨[], by rw [buildKidsExc]⟩, fun h => ?_⟩
      rw [hasBad] at h
      cases h
    | EFSEntry.file n c :: rest =>
      have hrest : sizeOf rest ≤ N := by
        have h1 : sizeOf (EFSEntry.file n c :: rest) = 1 + sizeOf (EFSEntry.file n c) + sizeOf rest := by simp
        have h2 : 0 < sizeOf (EFSEntry.file n c) := by simp
        omega
      obtain ⟨ihok, iherr⟩ := ih rest hrest name rel
      rw [hasBad, buildKidsExc]
      constructor
      · intro h
        obtain ⟨cs, hcs⟩ := ihok h
        exact ⟨_, by rw [hcs]⟩
      · intro h
        obtain ⟨e, he⟩ := iherr h
        exact ⟨e, by rw [he]⟩
    | EFSEntry.badDir n :: rest =>
      rw [hasBad, buildKidsExc]
      refine ⟨fun h => ?_, fun _ => ⟨_, rfl⟩⟩
      cases h
    | EFSEntry.badFile n :: rest =>
      have hrest : sizeOf rest ≤ N := by
        have h1 : sizeOf (EFSEntry.badFile n :: rest) = 1 + sizeOf (EFSEntry.badFile n) + sizeOf rest := by simp
        have h2 : 0 < sizeOf (EFSEntry.badFile n) := by simp
        omega
      obtain ⟨ihok, iherr⟩ := ih rest hrest name rel
      by_cases hn : isHtmlName n = true
      · rw [hasBad, buildKidsExc, hn]
        refine ⟨fun h => ?_, fun _ => ⟨"EACCES: permission denied, open " ++ n, by simp⟩⟩
        simp at h
      · rw [Bool.not_eq_true] at hn
        rw [hasBad, buildKidsExc, hn]
        constructor
        · intro h
          simp only [Bool.false_or] at h
          obtain ⟨cs, hcs⟩ := ihok h
          exact ⟨cs, by simp [hcs]⟩
        · intro h
          simp only [Bool.false_or] at h
          obtain ⟨e, he⟩ := iherr h
          exact ⟨e, by simp [he]⟩
    | EFSEntry.dir n es :: rest =>
      have hes : sizeOf es ≤ N := by
        have h1 : sizeOf (EFSEntry.dir n es :: rest) = 1 + sizeOf (EFSEntry.dir n es) + sizeOf rest := by simp
        have h2 : sizeOf (EFSEntry.dir n es) = 1 + sizeOf n + sizeOf es := by simp
        have h3 : 0 < sizeOf rest := by cases rest <;> simp
        omega
      have hrest : sizeOf rest ≤ N := by
        have h1 : sizeOf (EFSEntry.dir n es :: rest) = 1 + sizeOf (EFSEntry.dir n es) + sizeOf rest := by simp
        have h2 : 0 < sizeOf (EFSEntry.dir n es) := by simp
        omega
      obtain ⟨ihok, iherr⟩ := ih rest hrest name rel
      obtain ⟨ihokes, iherres⟩ := ih es hes n (pjoin rel name)
      rw [hasBad, buildKidsExc, buildTreeExc]
      constructor
      · intro h
        rw [Bool.or_eq_false_iff] at h
        obtain ⟨cs1, hcs1⟩ := ihokes h.1
        obtain ⟨cs2, hcs2⟩ := ihok h.2
        rw [hcs1, hcs2]
        by_cases hl : 0 < cs1.length
        · exact ⟨[Node.dir n cs1] ++ cs2, by simp [hl]⟩
        · exact ⟨[] ++ cs2, by simp [hl]⟩
      · intro h
        rw [Bool.or_eq_true] at h
        rcases h with h | h
        · obtain ⟨e, he⟩ := iherres h
          rw [he]
          exact ⟨e, rfl⟩
        · by_cases hbes : hasBad es = true
          · obtain ⟨e, he⟩ := iherres hbes
            rw [he]
            exact ⟨e, rfl⟩
          · rw [Bool.not_eq_true] at hbes
            obtain ⟨cs1, hcs1⟩ := ihokes hbes
            obtain ⟨e, he⟩ := iherr h
            rw [hcs1, he]
            refine ⟨e, ?_⟩
            by_cases hl : 0 < cs1.length <;> simp [hl]

/-- C8: in every run in which some filesystem access of the walk fails
(an unenumerable directory, or an unreadable page file), the run aborts:
the walk raises an error, nothing is written — the output file's previous
state is returned exactly as it was — and the error is surfaced as the
run's outcome. -/
theorem C8_failed_access_aborts (rootName : String) (entries : List EFSEntry)
    (hbad : hasBad entries = true) (st : OutFS) :
    ∃ e, buildTreeExc rootName entries "" = Except.error e ∧
      runExport rootName entries st = (st, RunResult.failure e) := by
  obtain ⟨e, he⟩ :=
    (buildKidsExc_error_aux (sizeOf entries) entries (Nat.le_refl _) rootName "").2 hbad
  refine ⟨e, ?_⟩
  have hbt : buildTreeExc rootName entries "" = Except.error e := by
    rw [buildTreeExc, he]
  exact ⟨hbt, by rw [runExport, hbt]; rfl⟩

theorem C8_failed_access_aborts_witness :
    ∃ e, buildTreeExc "root" [EFSEntry.badDir "secret"] "" = Except.error e ∧
      runExport "root" [EFSEntry.badDir "secret"]
        { outDirExists := true, outFile := some "old" } =
        ({ outDirExists := true, outFile := some "old" }, RunResult.failure e) :=
  C8_failed_access_aborts "root" [EFSEntry.badDir "secret"]
    (by rw [hasBad]) { outDirExists := true, outFile := some "old" }

/-- C7 counterexample: a starting state in which the destination
directory is absent and the walk succeeds: the run does not create the
directory, and the write fails precisely because the directory is
absent — so the serializer does not ensure the destination directory
exists before writing. -/
theorem C7_counterexample :
    runMain (Except.ok none) { outDirExists := false, outFile := none } =
      ({ outDirExists := false, outFile := none },
        RunResult.failure "ENOENT: no such file or directory") ∧
    (runMain (Except.ok none) { outDirExists := false, outFile := none }).1.outDirExists = false := by
  exact ⟨rfl, rfl⟩

/-- C7 amended: the serializer performs no directory creation: when the
destination directory exists the JSON artifact is written over any prior
contents, and when it is absent the write fails, the filesystem state is
left unchanged, and the failure is the run's outcome. -/
theorem C7_amended_no_mkdir (tree : Option Node) (st : OutFS) :
    (st.outDirExists = true →
      runMain (Except.ok tree) st =
        ({ st with outFile := some (jsonStringify tree) }, RunResult.success)) ∧
    (st.outDirExists = false →
      runMain (Except.ok tree) st =
        (st, RunResult.failure "ENOENT: no such file or directory")) := by
  constructor
  · intro h
    simp [runMain, h]
  · intro h
    simp [runMain, h]

theorem C7_amended_no_mkdir_witness :
    runMain (Except.ok none) { outDirExists := true, outFile := none } =
      ({ outDirExists := true, outFile := some "null" }, RunResult.success) ∧
    runMain (Except.ok none) { outDirExists := false, outFile := some "old" } =
      ({ outDirExists := false, outFile := some "old" },
        RunResult.failure "ENOENT: no such file or directory") :=
  ⟨(C7_amended_no_mkdir none { outDirExists := true, outFile := none }).1 rfl,
    (C7_amended_no_mkdir none { outDirExists := false, outFile := some "old" }).2 rfl⟩

/-- C9: when the scan root contains no page file classified include at
any depth, the walk returns `null`, and the run nevertheless writes the
output file, whose entire content is the JSON document `null` (the
destination directory being present, since the script does not create
it). -/
theorem C9_null_written (rootName : String) (entries : List FSEntry)
    (hip : hasIncludedPage entries = false) (st : OutFS)
    (hdir : st.outDirExists = true) :
    buildTree rootName entries "" = none ∧
      runExport rootName (embedFSList entries) st =
        ({ st with outFile := some "null" }, RunResult.success) := by
  have hbt : buildTree rootName entries "" = none := by
    rw [buildTree_eq_none_iff, buildChildren_eq_nil_iff]
    exact hip
  refine ⟨hbt, ?_⟩
  rw [runExport, buildTreeExc_embed, hbt]
  simp [runMain, hdir, jsonStringify]

theorem C9_null_written_witness :
    buildTree "root" [FSEntry.file "readme.txt" "hello"] "" = none ∧
      runExport "root" (embedFSList [FSEntry.file "readme.txt" "hello"])
        { outDirExists := true, outFile := none } =
        ({ outDirExists := true, outFile := some "null" }, RunResult.success) :=
  C9_null_written "root" [FSEntry.file "readme.txt" "hello"]
    (by simp +decide [hasIncludedPage]) { outDirExists := true, outFile := none } rfl

/-! ## Meta-directive matching laws for the attribute-order claim -/

theorem testMeta_of_metaAt {v cs : List Char} (h : metaAt v cs = true) :
    testMeta v cs = true := by
  cases cs with
  | nil => rw [testMeta]; exact h
  | cons c rest => rw [testMeta]; simp [h]

theorem testMeta_append_left {v : List Char} (pre : List Char) {cs : List Char}
    (h : testMeta v cs = true) : testMeta v (pre ++ cs) = true := by
  induction pre with
  | nil => simpa
  | cons c pre ih => rw [List.cons_append, testMeta]; simp [ih]

theorem data_append3 (a b c : String) :
    (a ++ b ++ c).data = a.data ++ (b.data ++ c.data) := by
  rw [String.data_append, String.data_append, List.append_assoc]

/-- C2 counterexample: a page text whose sitemap directive has the
content attribute written before the name attribute: the classifier does
not recognise it, so the page is classified unspecified rather than
include — refuting the claim that attribute order does not matter. -/
theorem C2_counterexample :
    classify "<meta content=\"include\" name=\"sitemap\">" = Verdict.Unspecified ∧
    classify "<meta content=\"include\" name=\"sitemap\">" ≠ Verdict.Include ∧
    checkSitemapMeta "<meta content=\"include\" name=\"sitemap\">" = (false, false) := by
  refine ⟨by decide, by decide, by decide⟩

/-- C2 amended: the classifier recognises the directive with the name
attribute before the content attribute regardless of letter case, of the
quote characters used, of an optional self-closing slash and of the
surrounding text (a page carrying the include form is classified
include); but the variant with the content attribute before the name
attribute is not recognised. -/
theorem C2_amended_recognition (pre post : String) :
    classify (pre ++ "<meta name=\"sitemap\" content=\"include\"/>" ++ post) = Verdict.Include ∧
    classify (pre ++ "<MeTa NaMe=\"SITEMAP\" CoNtEnT=\"InClUdE\">" ++ post) = Verdict.Include ∧
    classify (pre ++ "<meta name=\u0027sitemap\u0027 content=\u0027include\u0027 />" ++ post) = Verdict.Include ∧
    (checkSitemapMeta (pre ++ "<META NAME=\u0027sitemap\u0027 CONTENT=\u0027EXCLUDE\u0027/>" ++ post)).2 = true ∧
    (checkSitemapMeta (pre ++ "<meta name=\"sitemap\" content=\"exclude\">" ++ post)).2 = true ∧
    classify "<meta content=\"include\" name=\"sitemap\">" ≠ Verdict.Include := by
  refine ⟨?_, ?_, ?_, ?_, ?_, by decide⟩ <;>
    [rw [classify_eq_include]; rw [classify_eq_include]; rw [classify_eq_include]; skip; skip] <;>
    · show testMeta _ _ = true
      rw [data_append3]
      refine testMeta_append_left _ (testMeta_of_metaAt ?_)
      simp [metaAt, ciChop, quoteAt, wsSome, wsMany, slashGt, squo, isJsWs]

/-! ## Title extraction: specification-side description

The specification describes the extractor by its result: the trimmed
text between the first opening and the first closing title delimiter
pair, matched case-insensitively, with the capture non-greedy and not
crossing line terminators, or nothing when no such pair exists.  The
description is formalised below as an explicit search over start
positions and capture lengths, to be proved equal to the scanner
embedded from the code. -/

/-- Does a closing delimiter lie `k` characters ahead, with every one of
those `k` characters one the dot may match (no line terminator)? -/
def pairTail (cs : List Char) (k : Nat) : Bool :=
  ((cs.take k).all (fun c => !isLineTerm c)) && ciLookingAt closeTitleLit (cs.drop k)

/-- The first title pair of the text, by explicit search: the least
start position where the opening delimiter matches and some capture
length closes the pair, and there the least (non-greedy) capture
length; the result is the captured text. -/
def specFind (cs : List Char) : Option (List Char) :=
  (List.range (cs.length + 1)).findSome? (fun i =>
    if ciLookingAt openTitleLit (cs.drop i) then
      ((List.range (cs.length + 1)).find? (fun k => pairTail (cs.drop (i + 7)) k)).map
        (fun k => (cs.drop (i + 7)).take k)
    else none)

/-- The specification-side title extractor: the trimmed text of the
first title pair, or nothing. -/
def specTitle (html : String) : Option String :=
  (specFind html.data).map (fun cs => String.mk (trimChars cs))

theorem ciChop_drop {pat cs r : List Char} (h : ciChop pat cs = some r) :
    r = cs.drop pat.length := by
  induction pat generalizing cs with
  | nil =>
    simp only [ciChop] at h
    cases h
    simp
  | cons p ps ih =>
    cases cs with
    | nil =>
      simp only [ciChop] at h
      cases h
    | cons c cs' =>
      simp only [ciChop] at h
      by_cases hc : p.toLower = c.toLower
      · rw [if_pos hc] at h
        have := ih h
        simpa using this
      · rw [if_neg hc] at h
        cases h

theorem ciChop_none_of_not_looking {pat cs : List Char}
    (h : ciLookingAt pat cs = false) : ciChop pat cs = none := by
  unfold ciLookingAt at h
  cases hc : ciChop pat cs with
  | none => rfl
  | some r => rw [hc] at h; cases h

theorem ciChop_some_of_looking {pat cs : List Char}
    (h : ciLookingAt pat cs = true) :
    ciChop pat cs = some (cs.drop pat.length) := by
  cases hc : ciChop pat cs with
  | none => unfold ciLookingAt at h; rw [hc] at h; cases h
  | some r => rw [ciChop_drop hc]

theorem findSome?_comp_map {α β γ : Type} (f : α → β) (g : β → Option γ)
    (l : List α) : (l.map f).findSome? g = l.findSome? (fun a => g (f a)) := by
  induction l with
  | nil => rfl
  | cons a l ih =>
    rw [List.map_cons, List.findSome?_cons, List.findSome?_cons, ih]

theorem find?_comp_map {α β : Type} (f : α → β) (p : β → Bool) (l : List α) :
    (l.map f).find? p = ((l.find? (fun a => p (f a))).map f) := by
  induction l with
  | nil => rfl
  | cons a l ih =>
    rw [List.map_cons]
    by_cases h : p (f a) = true
    · rw [List.find?_cons_of_pos _ h,
        show (a :: l).find? (fun x => p (f x)) = some a from List.find?_cons_of_pos _ h]
      rfl
    · rw [Bool.not_eq_true] at h
      rw [List.find?_cons_of_neg _ (by simp [h]),
        show (a :: l).find? (fun x => p (f x)) = l.find? (fun x => p (f x)) from
          List.find?_cons_of_neg _ (by simp [h]),
        ih]

theorem pairTail_nil (k : Nat) : pairTail [] k = false := by
  unfold pairTail
  rw [List.take_nil, List.drop_nil]
  decide

theorem scanContent_nil_eq (N : Nat) :
    scanContent [] =
      ((List.range (N + 1)).find? (fun k => pairTail [] k)).map
        (fun k => ([] : List Char).take k) := by
  have hf : (List.range (N + 1)).find? (fun k => pairTail [] k) = none := by
    rw [List.find?_eq_none]
    intro k _
    simp [pairTail_nil]
  rw [hf, show scanContent [] = none from by decide]
  rfl

theorem scanContent_eq_find : ∀ (N : Nat) (cs : List Char), cs.length ≤ N →
    scanContent cs =
      ((List.range (N + 1)).find? (fun k => pairTail cs k)).map (fun k => cs.take k) := by
  intro N
  induction N with
  | zero =>
    intro cs hle
    have hnil : cs = [] := List.length_eq_zero.mp (Nat.le_zero.mp hle)
    subst hnil
    exact scanContent_nil_eq 0
  | succ M ih =>
    intro cs hle
    cases cs with
    | nil => exact scanContent_nil_eq (M + 1)
    | cons c rest =>
      have hlrest : rest.length ≤ M := by
        simpa using hle
      rw [List.range_succ_eq_map]
      by_cases hcl : ciLookingAt closeTitleLit (c :: rest) = true
      · have h0 : pairTail (c :: rest) 0 = true := by
          unfold pairTail
          simp [hcl]
        rw [List.find?_cons_of_pos _ h0]
        simp [scanContent, hcl]
      · rw [Bool.not_eq_true] at hcl
        have h0 : pairTail (c :: rest) 0 = false := by
          unfold pairTail
          simp [hcl]
        rw [List.find?_cons_of_neg _ (by simp [h0]), find?_comp_map]
        by_cases hterm : isLineTerm c = true
        · have hfalse : ∀ k, pairTail (c :: rest) (Nat.succ k) = false := by
            intro k
            unfold pairTail
            simp [List.take_succ_cons, hterm]
          rw [show (List.range (M + 1)).find? (fun a => pairTail (c :: rest) (Nat.succ a)) = none from by
            rw [List.find?_eq_none]
            intro k _
            simp [hfalse]]
          rw [show scanContent (c :: rest) = none from by simp [scanContent, hcl, hterm]]
          rfl
        · rw [Bool.not_eq_true] at hterm
          have hshift : (fun a => pairTail (c :: rest) (Nat.succ a)) = (fun a => pairTail rest a) := by
            funext k
            unfold pairTail
            rw [List.take_succ_cons, List.drop_succ_cons]
            simp [hterm]
          rw [hshift,
            show scanContent (c :: rest) = (scanContent rest).map (fun cs => c :: cs) from by
              simp [scanContent, hcl, hterm],
            ih rest hlrest, Option.map_map, Option.map_map,
            show ((fun cs => c :: cs) ∘ fun k => List.take k rest) =
                ((fun k => List.take k (c :: rest)) ∘ Nat.succ) from by
              funext k
              simp [Function.comp, List.take_succ_cons]]

/-- One start-position attempt of the explicit search, with search bound
`N` for the capture length. -/
def specBody (N : Nat) (cs : List Char) (i : Nat) : Option (List Char) :=
  if ciLookingAt openTitleLit (cs.drop i) then
    ((List.range (N + 1)).find? (fun k => pairTail (cs.drop (i + 7)) k)).map
      (fun k => (cs.drop (i + 7)).take k)
  else none

theorem specFind_eq_body (cs : List Char) :
    specFind cs = (List.range (cs.length + 1)).findSome? (specBody cs.length cs) := rfl

theorem specBody_eq_scan {N : Nat} {cs : List Char} (i : Nat) (h : cs.length ≤ N) :
    specBody N cs i =
      if ciLookingAt openTitleLit (cs.drop i) then scanContent (cs.drop (i + 7)) else none := by
  unfold specBody
  have hlen : (cs.drop (i + 7)).length ≤ N := by
    rw [List.length_drop]
    omega
  by_cases ho : ciLookingAt openTitleLit (cs.drop i) = true
  · rw [if_pos ho, if_pos ho, scanContent_eq_find N (cs.drop (i + 7)) hlen]
  · rw [Bool.not_eq_true] at ho
    rw [ho]
    simp

theorem findTitle_nil_eq (N : Nat) :
    findTitle ([] : List Char) = (List.range (N + 1)).findSome? (specBody N []) := by
  rw [show findTitle ([] : List Char) = none from rfl]
  symm
  rw [List.findSome?_eq_none_iff]
  intro i _
  simp [specBody, List.drop_nil,
    show ciLookingAt openTitleLit ([] : List Char) = false from by decide]

theorem findTitle_eq_aux : ∀ (N : Nat) (cs : List Char), cs.length ≤ N →
    findTitle cs = (List.range (N + 1)).findSome? (specBody N cs) := by
  intro N
  induction N with
  | zero =>
    intro cs hle
    have hnil : cs = [] := List.length_eq_zero.mp (Nat.le_zero.mp hle)
    subst hnil
    exact findTitle_nil_eq 0
  | succ M ih =>
    intro cs hle
    cases cs with
    | nil => exact findTitle_nil_eq (M + 1)
    | cons c rest =>
      have hlrest : rest.length ≤ M := by simpa using hle
      rw [List.range_succ_eq_map, List.findSome?_cons, specBody_eq_scan 0 hle,
        List.drop_zero, show (0 : Nat) + 7 = 7 from rfl]
      have hshift : (fun i => specBody (M + 1) (c :: rest) (Nat.succ i)) =
          (fun i => specBody M rest i) := by
        funext i
        rw [specBody_eq_scan _ hle, specBody_eq_scan _ hlrest, List.drop_succ_cons,
          show Nat.succ i + 7 = (i + 7) + 1 from by omega, List.drop_succ_cons]
      by_cases hopen : ciLookingAt openTitleLit (c :: rest) = true
      · have hchop : ciChop openTitleLit (c :: rest) = some ((c :: rest).drop 7) := by
          rw [ciChop_some_of_looking hopen, show openTitleLit.length = 7 from by decide]
        rw [if_pos hopen]
        cases hscan : scanContent ((c :: rest).drop 7) with
        | some content =>
          simp only [findTitle, hchop, hscan]
        | none =>
          simp only [findTitle, hchop, hscan]
          rw [ih rest hlrest, findSome?_comp_map, hshift]
      · have hopen2 : ciLookingAt openTitleLit (c :: rest) = false :=
          Bool.not_eq_true _ |>.mp hopen
        have hchop : ciChop openTitleLit (c :: rest) = none :=
          ciChop_none_of_not_looking hopen2
        rw [hopen2]
        simp only [findTitle, hchop, Bool.false_eq_true, if_false]
        rw [ih rest hlrest, findSome?_comp_map, hshift]

/-- C6: for every input text, the title extractor returns the
whitespace-trimmed text between the first opening and first closing
title delimiter pair — tag names matched case-insensitively, content
captured non-greedily and not across line terminators — and returns
nothing when no such pair exists; in particular on a text whose first
title pair is `<TITLE>  Home  </TITLE>` it returns `Home`. -/
theorem C6_title_extraction (html : String) :
    extractTitle html = specTitle html ∧
    extractTitle "<TITLE>  Home  </TITLE>" = some "Home" := by
  refine ⟨?_, by decide⟩
  unfold extractTitle specTitle
  rw [specFind_eq_body, ← findTitle_eq_aux html.data.length html.data (Nat.le_refl _)]
